import Mathlib

/-!
Verification development for the `ipa` utility module (`ipa/ipa_utils.py`).

The Python module is shallowly embedded: dictionaries become association
lists (`List (String × α)` with first-match lookup), the filesystem and the
network become explicit oracle parameters, raised exceptions become
`Except IpaError`, and the recursive description expansion is given an
explicit fuel parameter whose sufficiency is proved as a theorem.
-/

/-- Exceptions raised by the Python module.  `utilsError` is
`IpaUtilsException` (carrying its message), `sshError` is `IpaSSHException`
with a message, `sshBytes` is `IpaSSHException` carrying raw stderr bytes,
and `valueError` is an unhandled Python `ValueError` (tuple-unpacking
failure), carrying the offending filename. -/
inductive IpaError where
  | utilsError : String → IpaError
  | sshError : String → IpaError
  | sshBytes : List Nat → IpaError
  | valueError : String → IpaError
deriving DecidableEq, Repr

/-- A parsed yaml test description document: the optional `tests` key and
the optional `include` key, each an ordered list of strings. -/
structure TestDesc where
  tests : Option (List String)
  incl : Option (List String)
deriving DecidableEq, Repr

/-- First-match association-list lookup, modelling Python `dict.get` on a
dict with unique keys. -/
def lookupA {β : Type} : List (String × β) → String → Option β
  | [], _ => none
  | (k, v) :: rest, n => if k = n then some v else lookupA rest n

/-- The `tests` list a description file at path `p` contributes when it is
parsed (`[]` when the key is missing).  The filesystem oracle `fs` maps a
path to its parsed yaml document (`none` = file missing / unparsable). -/
def ownTests (fs : String → Option TestDesc) (p : String) : List String :=
  match fs p with
  | some d => d.tests.getD []
  | none => []

/-- All file paths stored in a descriptions dictionary. -/
def pathsOf (descs : List (String × String)) : List String :=
  descs.map (fun e => e.2)

/-- The result type of one expansion call: collected tests together with
the (mutated) `parsed` list of description paths. -/
abbrev ExpandRes := Except IpaError (List String × List String)

/-- The `for description_name in test_data.get('include')` loop of
`get_tests_from_description`: runs `step` (the recursive call) on each
include name in order, threading the shared `parsed` list and appending
the collected tests; `none` (fuel exhaustion) and errors propagate. -/
def expandIncludes (step : String → List String → Option ExpandRes) :
    List String → List String → List String → Option ExpandRes
  | [], acc, parsed => some (.ok (acc, parsed))
  | n :: rest, acc, parsed =>
    match step n parsed with
    | none => none
    | some (.error e) => some (.error e)
    | some (.ok (ts, parsed')) => expandIncludes step rest (acc ++ ts) parsed'

/-- `get_tests_from_description(name, descriptions, parsed)` from
`ipa_utils.py`, with fuel making the general recursion explicit (`none` =
fuel exhausted; sufficiency of fuel is proved below).  A top-level call
passes `parsed = []`, matching the Python default `parsed=None` (and the
falsy reset `if not parsed: parsed = []`).  Faithful details: the lookup
result is also rejected when it is the empty string (Python `if not
description:`); a path already in `parsed` returns `[]`; otherwise the
path is appended to `parsed`, the document is loaded via `fs`, its own
`tests` are taken first and each `include` entry is expanded in order. -/
def get_tests_from_description (fs : String → Option TestDesc)
    (descs : List (String × String)) :
    Nat → String → List String → Option ExpandRes
  | 0, _, _ => none
  | fuel + 1, name, parsed =>
    match lookupA descs name with
    | none =>
      some (.error (.utilsError
        ("Test description file with name: " ++ name ++ " cannot be located.")))
    | some description =>
      if description = "" then
        some (.error (.utilsError
          ("Test description file with name: " ++ name ++ " cannot be located.")))
      else if description ∈ parsed then
        some (.ok ([], parsed))
      else
        match fs description with
        | none =>
          some (.error (.utilsError ("Config file not found: " ++ description)))
        | some data =>
          expandIncludes (get_tests_from_description fs descs fuel)
            (data.incl.getD []) (data.tests.getD []) (parsed ++ [description])

/-- One include edge, then reachability between description paths:
`PathReach fs descs p q` means the description file at `p` (transitively)
reaches the one at `q` through `include` entries resolved by `descs`. -/
inductive PathReach (fs : String → Option TestDesc)
    (descs : List (String × String)) : String → String → Prop
  | refl (p : String) : PathReach fs descs p p
  | step (p : String) (d : TestDesc) (n p' q : String) :
      fs p = some d → n ∈ d.incl.getD [] → lookupA descs n = some p' →
      p' ≠ "" → PathReach fs descs p' q → PathReach fs descs p q

/-- A description path `q` is reachable from the top-level description
name `name`. -/
def Reaches (fs : String → Option TestDesc) (descs : List (String × String))
    (name q : String) : Prop :=
  ∃ p, lookupA descs name = some p ∧ p ≠ "" ∧ PathReach fs descs p q

instance {α β : Type} [DecidableEq α] [DecidableEq β] :
    DecidableEq (Except α β) := fun a b =>
  match a, b with
  | .ok x, .ok y =>
    if h : x = y then isTrue (by rw [h]) else isFalse (by intro hc; cases hc; exact h rfl)
  | .error x, .error y =>
    if h : x = y then isTrue (by rw [h]) else isFalse (by intro hc; cases hc; exact h rfl)
  | .ok _, .error _ => isFalse (by intro hc; cases hc)
  | .error _, .ok _ => isFalse (by intro hc; cases hc)

-- sanity examples (cycle A ↔ B)
def cycFs : String → Option TestDesc := fun p =>
  if p = "pA" then some ⟨some ["tA"], some ["B"]⟩
  else if p = "pB" then some ⟨some ["tB"], some ["A"]⟩
  else none

def cycDescs : List (String × String) := [("A", "pA"), ("B", "pB")]

-- diamond: A includes B and C, both include D
def diaFs : String → Option TestDesc := fun p =>
  if p = "pA" then some ⟨some ["tA"], some ["B", "C"]⟩
  else if p = "pB" then some ⟨some ["tB"], some ["D"]⟩
  else if p = "pC" then some ⟨some ["tC"], some ["D"]⟩
  else if p = "pD" then some ⟨some ["tD"], none⟩
  else none

def diaDescs : List (String × String) :=
  [("A", "pA"), ("B", "pB"), ("C", "pC"), ("D", "pD")]

/-! ## SSH connection management (`execute_ssh_command`, `get_ssh_client`,
`clear_cache`) -/

/-- `execute_ssh_command(client, cmd)`: the client's `exec_command` is the
oracle `ex`, mapping a command to `(stdout bytes, stderr bytes)` (`none`
models `exec_command` itself raising, which the bare `except: raise`
re-raises).  Standard error is read first; non-empty stderr raises
`IpaSSHException(err)`; otherwise the full stdout bytes are returned. -/
def execute_ssh_command (ex : String → Option (List Nat × List Nat))
    (cmd : String) : Except IpaError (List Nat) :=
  match ex cmd with
  | none => .error (.sshError "exec_command failed")
  | some (out, err) => if err ≠ [] then .error (.sshBytes err) else .ok out

/-- The external world of `get_ssh_client` over client type `C`:
`establish` is `establish_ssh_connection` (the connect primitive), given
the 0-based index of the call and the current timeout; `ex c` is client
`c`'s `exec_command` oracle used for the canary `'ls'`. -/
structure SshWorld (C : Type) where
  establish : Nat → Nat → Except IpaError C
  ex : C → String → Option (List Nat × List Nat)

/-- The `while attempts:` loop of `get_ssh_client`: each iteration calls
the connect primitive once (counted in `calls`); on connect failure or
canary (`'ls'`) failure the client is closed, `attempts` is decremented
and `timeout` doubled (`timeout += timeout`); on success the client is
returned.  Exhaustion raises `IpaSSHException`.  Returns the result
together with the total number of connect-primitive calls made. -/
def get_ssh_client_loop {C : Type} (w : SshWorld C) :
    Nat → Nat → Nat → Except IpaError C × Nat
  | 0, _, calls =>
    (.error (.sshError "Attempt to establish SSH connection failed."), calls)
  | attempts + 1, timeout, calls =>
    match w.establish calls timeout with
    | .error _ => get_ssh_client_loop w attempts (timeout + timeout) (calls + 1)
    | .ok c =>
      match execute_ssh_command (w.ex c) "ls" with
      | .error _ => get_ssh_client_loop w attempts (timeout + timeout) (calls + 1)
      | .ok _ => (.ok c, calls + 1)

/-- `get_ssh_client(ip, ..., attempts=3, timeout=10)`: the client cache is
an association list.  A cache hit returns the cached client at once (zero
connect-primitive calls); otherwise the retry loop runs and a successful
client is stored under `ip`.  Returns (result, final cache,
connect-primitive call count). -/
def get_ssh_client {C : Type} (w : SshWorld C) (cache : List (String × C))
    (ip : String) (attempts : Nat) (timeout : Nat) :
    Except IpaError C × List (String × C) × Nat :=
  match lookupA cache ip with
  | some c => (.ok c, cache, 0)
  | none =>
    match get_ssh_client_loop w attempts timeout 0 with
    | (.ok c, n) => (.ok c, cache ++ [(ip, c)], n)
    | (.error e, n) => (.error e, cache, n)

/-- `clear_cache(ip=None)`: `if ip:` is Python truthiness, so both `None`
and the empty string take the `else` branch and empty the whole cache;
a non-empty `ip` deletes just that key (`ignored(KeyError)` makes a
missing key a no-op, here `filter` removes nothing). -/
def clear_cache {C : Type} (cache : List (String × C)) (ip : Option String) :
    List (String × C) :=
  match ip with
  | some h => if h = "" then [] else cache.filter (fun e => e.1 ≠ h)
  | none => []

/-! ## Test catalog construction and selection (`find_test_files`) -/

/-- Boolean prefix test on character lists (structurally recursive, so it
evaluates inside the kernel, unlike `String.startsWith`). -/
def isPre : List Char → List Char → Bool
  | [], _ => true
  | _ :: _, [] => false
  | a :: as, b :: bs => a == b && isPre as bs

/-- Python `str.split(sep)` for a one-character separator `c`, on the
character list of the string: `''.split('.') = ['']`,
`'a..b'.split('.') = ['a','','b']`. -/
def splitChar (c : Char) : List Char → List (List Char)
  | [] => [[]]
  | a :: as =>
    if a == c then [] :: splitChar c as
    else
      match splitChar c as with
      | [] => [[a]]
      | g :: gs => (a :: g) :: gs

/-- `file.split('.')` as a list of strings. -/
def splitDots (s : String) : List String :=
  (splitChar '.' s.data).map (fun l => String.mk l)

/-- The first occurrence of `::` in a character list: `some (pre, post)`
splits around it, `none` means no occurrence. -/
def splitColons : List Char → Option (List Char × List Char)
  | [] => none
  | a :: as =>
    if a == ':' then
      match as with
      | b :: bs =>
        if b == ':' then some ([], bs)
        else
          match splitColons as with
          | none => none
          | some (pre, post) => some (a :: pre, post)
      | [] => none
    else
      match splitColons as with
      | none => none
      | some (pre, post) => some (a :: pre, post)

/-- `fnmatch.filter(files, 'test_*.py')` membership: starts with `test_`
and ends with `.py`, the two parts not overlapping. -/
def matchTestPat (s : String) : Bool :=
  isPre "test_".data s.data && isPre ".py".data.reverse s.data.reverse &&
    decide (8 ≤ s.data.length)

/-- `fnmatch.filter(files, 'test_*.yaml')` membership. -/
def matchDescPat (s : String) : Bool :=
  isPre "test_".data s.data && isPre ".yaml".data.reverse s.data.reverse &&
    decide (10 ≤ s.data.length)

/-- `os.path.flatten(root, file)` for a relative `file`. -/
def pathJoin (root file : String) : String :=
  if root = "" then file else root ++ "/" ++ file

/-- Processing one discovered test file: `name, ext = test_file.split('.')`
(a basename without exactly one `.` raises an unhandled `ValueError`);
a fresh name is inserted, an already-seen name raises the duplicate
`IpaUtilsException`. -/
def processTestFile (root : String) (tests : List (String × String))
    (file : String) : Except IpaError (List (String × String)) :=
  let path := pathJoin root file
  match splitDots file with
  | [name, _ext] =>
    match lookupA tests name with
    | none => .ok (tests ++ [(name, path)])
    | some prev =>
      .error (.utilsError
        ("Duplicate test file name found: " ++ path ++ ", " ++ prev))
  | _ => .error (.valueError file)

/-- Processing one discovered description file: split as above; a name
already present among tests raises the cross-kind collision
`IpaUtilsException`; a fresh name is inserted; a duplicate description
name raises the duplicate `IpaUtilsException`. -/
def processDescFile (root : String) (tests descs : List (String × String))
    (file : String) : Except IpaError (List (String × String)) :=
  let path := pathJoin root file
  match splitDots file with
  | [name, _ext] =>
    match lookupA tests name with
    | some prev =>
      .error (.utilsError
        ("Test description name matches test file: " ++ path ++ ", " ++ prev))
    | none =>
      match lookupA descs name with
      | none => .ok (descs ++ [(name, path)])
      | some prev =>
        .error (.utilsError
          ("Duplicate test description file name found: " ++ path ++ ", " ++ prev))
  | _ => .error (.valueError file)

/-- The `for test_file in test_files:` loop over one directory. -/
def processTestFiles (root : String) :
    List String → List (String × String) →
    Except IpaError (List (String × String))
  | [], tests => .ok tests
  | f :: rest, tests =>
    match processTestFile root tests f with
    | .error e => .error e
    | .ok tests' => processTestFiles root rest tests'

/-- The `for description_file in description_files:` loop over one
directory. -/
def processDescFiles (root : String) (tests : List (String × String)) :
    List String → List (String × String) →
    Except IpaError (List (String × String))
  | [], descs => .ok descs
  | f :: rest, descs =>
    match processDescFile root tests descs f with
    | .error e => .error e
    | .ok descs' => processDescFiles root tests rest descs'

/-- The directory walk of `find_test_files`: `walk` is the flattened
sequence of `(root, files)` pairs produced by `os.walk` over all test
directories, in discovery order.  Per directory, files matching the test
pattern are processed first, then files matching the description
pattern. -/
def processWalk :
    List (String × List String) → List (String × String) →
    List (String × String) →
    Except IpaError (List (String × String) × List (String × String))
  | [], tests, descs => .ok (tests, descs)
  | (root, files) :: rest, tests, descs =>
    match processTestFiles root (files.filter matchTestPat) tests with
    | .error e => .error e
    | .ok tests' =>
      match processDescFiles root tests' (files.filter matchDescPat) descs with
      | .error e => .error e
      | .ok descs' => processWalk rest tests' descs'

/-- Python `dict` assignment `m[k] = v` on an association list. -/
def assignA {β : Type} (m : List (String × β)) (k : String) (v : β) :
    List (String × β) :=
  if (lookupA m k).isSome then
    m.map (fun e => if e.1 = k then (k, v) else e)
  else m ++ [(k, v)]

/-- Python `tests.update(descriptions)`: every description entry is
assigned into the tests map, overwriting on key collision. -/
def updateA {β : Type} (m m' : List (String × β)) : List (String × β) :=
  m'.foldl (fun acc kv => assignA acc kv.1 kv.2) m

/-- `find_test_files(test_dirs)` with `names=None` (or empty, both falsy):
walk, then `tests.update(descriptions)` and return the union map. -/
def find_test_files_nonames (walk : List (String × List String)) :
    Except IpaError (List (String × String)) :=
  match processWalk walk [] [] with
  | .error e => .error e
  | .ok (tests, descs) => .ok (updateA tests descs)

/-- `name.split('::', 1)` with the `except` fallback `(name, None)` when
there is no separator. -/
def splitCase (name : String) : String × Option String :=
  match splitColons name.data with
  | none => (name, none)
  | some (pre, post) => (String.mk pre, some (String.mk post))

/-- The per-name body of the final loop of `find_test_files`: split off an
optional sub-case, look the test name up (a missing key — or an empty
path, both falsy — raises the not-found `IpaUtilsException`), append
`::sub_case` when a non-empty sub-case is present (`if test_case:`), and
key the result by the original requested name. -/
def resolveName (tests : List (String × String)) (name : String) :
    Except IpaError (String × String) :=
  let tc := splitCase name
  match lookupA tests tc.1 with
  | none =>
    .error (.utilsError
      ("Test file with name: " ++ tc.1 ++ " cannot be found."))
  | some path =>
    if path = "" then
      .error (.utilsError
        ("Test file with name: " ++ tc.1 ++ " cannot be found."))
    else
      match tc.2 with
      | some c => if c = "" then .ok (name, path) else .ok (name, path ++ "::" ++ c)
      | none => .ok (name, path)

/-! ## Concrete instances used by witnesses -/

/-- A world whose connect primitive always fails. -/
def wFail : SshWorld Nat :=
  ⟨fun _ _ => .error (.sshError "connection refused"), fun _ _ => none⟩

/-- A world whose connect primitive succeeds at once with client `7`,
which answers the canary with empty stderr. -/
def wOk : SshWorld Nat :=
  ⟨fun _ _ => .ok 7, fun _ _ => some ([104, 105], [])⟩

/-- A remote `exec_command` oracle: the command `"bad"` writes to stderr,
anything else answers `[5, 6]` on stdout with empty stderr. -/
def exStub : String → Option (List Nat × List Nat) :=
  fun c => if c = "bad" then some ([1], [9, 9]) else some ([5, 6], [])

/-! ## Invariants of description expansion -/

/-- What one successful expansion call guarantees about the `parsed`
list: it grew by a block `newly` of fresh, duplicate-free description
paths drawn from the dictionary, each newly parsed file exists, and every
include of a newly parsed file resolves to a non-empty path that is in
the final `parsed` list. -/
def ExpandInv (fs : String → Option TestDesc) (descs : List (String × String))
    (parsed parsed' newly : List String) : Prop :=
  parsed' = parsed ++ newly ∧
  newly.Nodup ∧
  (∀ p ∈ newly, p ∉ parsed) ∧
  (∀ p ∈ newly, p ∈ pathsOf descs) ∧
  (∀ p ∈ newly, (fs p).isSome) ∧
  (∀ p ∈ newly, ∀ d, fs p = some d →
      ∀ n ∈ d.incl.getD [], ∃ p', lookupA descs n = some p' ∧ p' ≠ "" ∧
        p' ∈ parsed')

/-- Postcondition of a successful `get_tests_from_description` call on
`name`: some fresh block `newly` satisfies the invariant, the returned
tests are exactly the concatenated own tests of `newly`, the root path of
`name` resolves and lies in the final `parsed` list, and every newly
parsed path is reachable from the root path. -/
def GPost (fs : String → Option TestDesc) (descs : List (String × String))
    (name : String) (parsed ts parsed' : List String) : Prop :=
  ∃ newly, ExpandInv fs descs parsed parsed' newly ∧
    ts = (newly.map (ownTests fs)).flatten ∧
    (∃ p, lookupA descs name = some p ∧ p ≠ "" ∧ p ∈ parsed') ∧
    (∀ q ∈ newly, ∃ p, lookupA descs name = some p ∧ p ≠ "" ∧
        PathReach fs descs p q)

/-- Postcondition of a successful include-loop run over `incls` starting
from accumulator `acc`. -/
def EPost (fs : String → Option TestDesc) (descs : List (String × String))
    (incls acc : List String) (parsed ts parsed' : List String) : Prop :=
  ∃ newly, ExpandInv fs descs parsed parsed' newly ∧
    ts = acc ++ (newly.map (ownTests fs)).flatten ∧
    (∀ n ∈ incls, ∃ p', lookupA descs n = some p' ∧ p' ≠ "" ∧
        p' ∈ parsed') ∧
    (∀ q ∈ newly, ∃ n ∈ incls, ∃ p, lookupA descs n = some p ∧ p ≠ "" ∧
        PathReach fs descs p q)

/-- Number of description paths not yet parsed: the termination measure
of the expansion. -/
def remCount (descs : List (String × String)) (parsed : List String) : Nat :=
  ((pathsOf descs).toFinset \ parsed.toFinset).card

/-! ## Helper lemmas -/

theorem lookupA_append_self {β : Type} (cache : List (String × β))
    (ip : String) (c : β) (h : lookupA cache ip = none) :
    lookupA (cache ++ [(ip, c)]) ip = some c := by
  induction cache with
  | nil => simp [lookupA]
  | cons e rest ih =>
    rw [lookupA] at h
    by_cases he : e.1 = ip
    · rw [if_pos he] at h; cases h
    · cases e with
      | mk k v =>
        simp only [List.cons_append, lookupA]
        simp only at he
        rw [if_neg he] at h ⊢
        exact ih h

theorem lookupA_filter_self {β : Type} (cache : List (String × β))
    (h : String) :
    lookupA (cache.filter (fun e => e.1 ≠ h)) h = none := by
  induction cache with
  | nil => rfl
  | cons e rest ih =>
    by_cases he : e.1 = h
    · rw [List.filter_cons_of_neg (by simp [he])]
      exact ih
    · rw [List.filter_cons_of_pos (by simp [he])]
      cases e with
      | mk k v =>
        simp only at he
        rw [lookupA, if_neg he]
        exact ih

theorem lookupA_filter_ne {β : Type} (cache : List (String × β))
    (h k : String) (hk : k ≠ h) :
    lookupA (cache.filter (fun e => e.1 ≠ h)) k = lookupA cache k := by
  induction cache with
  | nil => rfl
  | cons e rest ih =>
    cases e with
    | mk k' v =>
      by_cases he : k' = h
      · rw [List.filter_cons_of_neg (by simp [he])]
        rw [lookupA, if_neg (by rw [he]; exact fun hc => hk hc.symm)]
        exact ih
      · rw [List.filter_cons_of_pos (by simp [he])]
        rw [lookupA, lookupA]
        by_cases hkk : k' = k
        · rw [if_pos hkk, if_pos hkk]
        · rw [if_neg hkk, if_neg hkk]
          exact ih

/-- With an always-failing connect primitive the retry loop consumes all
its attempts, one connect call per attempt, and raises. -/
theorem get_ssh_client_loop_always_fails {C : Type} (w : SshWorld C)
    (hfail : ∀ k τ, ∃ e, w.establish k τ = .error e) :
    ∀ (a t n : Nat),
      get_ssh_client_loop w a t n =
        (.error (.sshError "Attempt to establish SSH connection failed."),
          n + a) := by
  intro a
  induction a with
  | zero => intro t n; rfl
  | succ a ih =>
    intro t n
    obtain ⟨e, he⟩ := hfail n t
    rw [get_ssh_client_loop, he, ih]
    simp [Nat.add_comm, Nat.add_assoc, Nat.add_left_comm]

/-- The connect-call counter of the loop never decreases. -/
theorem get_ssh_client_loop_calls_ge {C : Type} (w : SshWorld C) :
    ∀ (a t n : Nat), n ≤ (get_ssh_client_loop w a t n).2 := by
  intro a
  induction a with
  | zero => intro t n; exact Nat.le_refl n
  | succ a ih =>
    intro t n
    rw [get_ssh_client_loop]
    split
    · exact Nat.le_trans (Nat.le_succ n) (ih (t + t) (n + 1))
    · split
      · exact Nat.le_trans (Nat.le_succ n) (ih (t + t) (n + 1))
      · exact Nat.le_succ n

/-- With at least one attempt allowed, the loop calls the connect
primitive at least once. -/
theorem get_ssh_client_loop_calls_pos {C : Type} (w : SshWorld C)
    (a t n : Nat) : n + 1 ≤ (get_ssh_client_loop w (a + 1) t n).2 := by
  rw [get_ssh_client_loop]
  split
  · exact get_ssh_client_loop_calls_ge w a (t + t) (n + 1)
  · split
    · exact get_ssh_client_loop_calls_ge w a (t + t) (n + 1)
    · exact Nat.le_refl (n + 1)

/-- On a cache miss the reported connect-call count is the loop's. -/
theorem get_ssh_client_calls_eq_loop {C : Type} (w : SshWorld C)
    (cache : List (String × C)) (ip : String) (a t : Nat)
    (h : lookupA cache ip = none) :
    (get_ssh_client w cache ip a t).2.2 = (get_ssh_client_loop w a t 0).2 := by
  rw [get_ssh_client, h]
  rcases hr : get_ssh_client_loop w a t 0 with ⟨res, n⟩
  cases res <;> rfl

/-! ## Claim C3: retry exhaustion -/

/-- C3: for a host not in the cache and a connect primitive that always
fails, `get_ssh_client` with `attempts = 3` raises `IpaSSHException`
(the spec's `ConnectionError`) after exactly 3 calls of the connect
primitive; in general the loop consumes exactly `attempts` calls, so it
neither gives up before the third attempt nor goes past it. -/
theorem get_client_retry_exhaustion {C : Type} (w : SshWorld C)
    (cache : List (String × C)) (ip : String) (t : Nat)
    (hip : lookupA cache ip = none)
    (hfail : ∀ k τ, ∃ e, w.establish k τ = .error e) :
    (get_ssh_client w cache ip 3 t).1 =
      .error (.sshError "Attempt to establish SSH connection failed.") ∧
    (get_ssh_client w cache ip 3 t).2.2 = 3 ∧
    ∀ a t', (get_ssh_client w cache ip a t').2.2 = a := by
  have hloop := get_ssh_client_loop_always_fails w hfail
  refine ⟨?_, ?_, ?_⟩
  · simp [get_ssh_client, hip, hloop 3 t 0]
  · rw [get_ssh_client_calls_eq_loop w cache ip 3 t hip, hloop 3 t 0]
  · intro a t'
    rw [get_ssh_client_calls_eq_loop w cache ip a t' hip, hloop a t' 0]
    simp

theorem get_client_retry_exhaustion_witness :
    (get_ssh_client wFail [] "host" 3 10).1 =
      .error (.sshError "Attempt to establish SSH connection failed.") ∧
    (get_ssh_client wFail [] "host" 3 10).2.2 = 3 :=
  have h := get_client_retry_exhaustion wFail [] "host" 10 rfl
    (fun _ _ => ⟨.sshError "connection refused", rfl⟩)
  ⟨h.1, h.2.1⟩

/-! ## Claim C4: cache reuse -/

/-- C4: a host present in the cache makes `get_ssh_client` return the
cached client object itself with the cache unchanged and zero calls of
the connect primitive (for every world, hence no liveness re-check);
consequently two sequential calls for the same host return the same
client object with exactly one connection establishment overall. -/
theorem get_client_cache_reuse {C : Type} :
    (∀ (w : SshWorld C) (cache : List (String × C)) (ip : String) (c : C)
        (a t : Nat), lookupA cache ip = some c →
        get_ssh_client w cache ip a t = (.ok c, cache, 0)) ∧
    (∀ (w : SshWorld C) (cache : List (String × C)) (ip : String) (c : C)
        (out : List Nat) (t t' a a' : Nat),
        lookupA cache ip = none → w.establish 0 t = .ok c →
        w.ex c "ls" = some (out, []) →
        get_ssh_client w cache ip (a + 1) t = (.ok c, cache ++ [(ip, c)], 1) ∧
        get_ssh_client w (cache ++ [(ip, c)]) ip a' t' =
          (.ok c, cache ++ [(ip, c)], 0)) := by
  have reuse : ∀ (w : SshWorld C) (cache : List (String × C)) (ip : String)
      (c : C) (a t : Nat), lookupA cache ip = some c →
      get_ssh_client w cache ip a t = (.ok c, cache, 0) := by
    intro w cache ip c a t h
    rw [get_ssh_client, h]
  refine ⟨reuse, ?_⟩
  intro w cache ip c out t t' a a' hnone hest hex
  have hloop : get_ssh_client_loop w (a + 1) t 0 = (.ok c, 1) := by
    rw [get_ssh_client_loop, hest]
    simp [execute_ssh_command, hex]
  constructor
  · simp [get_ssh_client, hnone, hloop]
  · exact reuse w (cache ++ [(ip, c)]) ip c a' t'
      (lookupA_append_self cache ip c hnone)

theorem get_client_cache_reuse_witness :
    get_ssh_client wOk [] "host" 3 10 = (.ok 7, [("host", 7)], 1) ∧
    get_ssh_client wOk [("host", 7)] "host" 3 10 =
      (.ok 7, [("host", 7)], 0) :=
  get_client_cache_reuse.2 wOk [] "host" 7 [104, 105] 10 10 2 3 rfl rfl rfl

/-! ## Claim C5 (corrected): clear_cache frame behaviour -/

/-- C5 counterexample: the claim says `clear_cache(host)` with a host
argument leaves every other entry unchanged, but Python `if ip:` treats
the empty-string host as falsy and empties the whole cache, so the
unrelated entry `"h"` disappears. -/
theorem clear_cache_frame_cex :
    lookupA (clear_cache [("", 0), ("h", 1)] (some "")) "h" ≠
      lookupA [("", 0), ("h", 1)] "h" := by decide

/-- C5 (amended): `clear_cache` with a non-empty host removes at most the
entry for that host, leaves every other entry unchanged, and
`clear_cache` with no host (like one with the falsy empty-string host)
empties the whole cache; after removal a `get_ssh_client` for that host
performs at least one fresh connect attempt (given a positive attempt
budget). -/
theorem clear_cache_spec (C : Type) (cache : List (String × C)) (h : String)
    (hne : h ≠ "") :
    lookupA (clear_cache cache (some h)) h = none ∧
    (∀ k, k ≠ h → lookupA (clear_cache cache (some h)) k = lookupA cache k) ∧
    clear_cache cache (none : Option String) = [] ∧
    (∀ (w : SshWorld C) (a t : Nat),
        1 ≤ (get_ssh_client w (clear_cache cache (some h)) h (a + 1) t).2.2) := by
  have hcc : clear_cache cache (some h) = cache.filter (fun e => e.1 ≠ h) := by
    rw [clear_cache, if_neg hne]
  have hnone : lookupA (clear_cache cache (some h)) h = none := by
    rw [hcc]; exact lookupA_filter_self cache h
  refine ⟨hnone, ?_, rfl, ?_⟩
  · intro k hk; rw [hcc]; exact lookupA_filter_ne cache h k hk
  · intro w a t
    rw [get_ssh_client_calls_eq_loop w _ h (a + 1) t hnone]
    have := get_ssh_client_loop_calls_pos w a t 0
    omega

theorem clear_cache_spec_witness :
    lookupA (clear_cache [("h", 1), ("k", 2)] (some "h")) "h" = none ∧
    clear_cache [("h", 1), ("k", 2)] (none : Option String) = [] :=
  have hs := clear_cache_spec Nat [("h", 1), ("k", 2)] "h" (by decide)
  ⟨hs.1, hs.2.2.1⟩

/-! ## Claim C6: command failure surfaces stderr -/

/-- C6: `execute_ssh_command` checks the remote stderr first — non-empty
error output raises `IpaSSHException` carrying exactly those bytes and no
stdout is returned; with empty stderr the full stdout bytes are
returned. -/
theorem execute_surfaces_stderr :
    (∀ (ex : String → Option (List Nat × List Nat)) (cmd : String)
        (out err : List Nat), ex cmd = some (out, err) → err ≠ [] →
        execute_ssh_command ex cmd = .error (.sshBytes err)) ∧
    (∀ (ex : String → Option (List Nat × List Nat)) (cmd : String)
        (out : List Nat), ex cmd = some (out, []) →
        execute_ssh_command ex cmd = .ok out) := by
  constructor
  · intro ex cmd out err hx herr
    simp [execute_ssh_command, hx, herr]
  · intro ex cmd out hx
    simp [execute_ssh_command, hx]

theorem execute_surfaces_stderr_witness :
    execute_ssh_command exStub "bad" = .error (.sshBytes [9, 9]) ∧
    execute_ssh_command exStub "ok" = .ok [5, 6] :=
  ⟨execute_surfaces_stderr.1 exStub "bad" [1] [9, 9] rfl (by decide),
   execute_surfaces_stderr.2 exStub "ok" [5, 6] rfl⟩

/-! ## Catalog helper lemmas -/

theorem processTestFile_ok_split (root : String)
    (tests t' : List (String × String)) (f : String)
    (h : processTestFile root tests f = .ok t') :
    (splitDots f).length = 2 := by
  unfold processTestFile at h
  split at h
  · rename_i name ext heq
    rw [heq]; rfl
  · cases h

theorem processDescFile_ok_split (root : String)
    (tests descs d' : List (String × String)) (f : String)
    (h : processDescFile root tests descs f = .ok d') :
    (splitDots f).length = 2 := by
  unfold processDescFile at h
  split at h
  · rename_i name ext heq
    rw [heq]; rfl
  · cases h

theorem processTestFiles_ok_split (root : String) :
    ∀ (files : List String) (tests t' : List (String × String)),
      processTestFiles root files tests = .ok t' →
      ∀ f ∈ files, (splitDots f).length = 2 := by
  intro files
  induction files with
  | nil => intro tests t' _ f hf; cases hf
  | cons g rest ih =>
    intro tests t' h f hf
    rw [processTestFiles] at h
    cases hg : processTestFile root tests g with
    | error e => rw [hg] at h; cases h
    | ok tests1 =>
      rw [hg] at h
      rcases List.mem_cons.mp hf with hfg | hfr
      · rw [hfg]; exact processTestFile_ok_split root tests tests1 g hg
      · exact ih tests1 t' h f hfr

theorem processDescFiles_ok_split (root : String)
    (tests : List (String × String)) :
    ∀ (files : List String) (descs d' : List (String × String)),
      processDescFiles root tests files descs = .ok d' →
      ∀ f ∈ files, (splitDots f).length = 2 := by
  intro files
  induction files with
  | nil => intro descs d' _ f hf; cases hf
  | cons g rest ih =>
    intro descs d' h f hf
    rw [processDescFiles] at h
    cases hg : processDescFile root tests descs g with
    | error e => rw [hg] at h; cases h
    | ok descs1 =>
      rw [hg] at h
      rcases List.mem_cons.mp hf with hfg | hfr
      · rw [hfg]; exact processDescFile_ok_split root tests descs descs1 g hg
      · exact ih descs1 d' h f hfr

theorem processWalk_ok_no_multidot :
    ∀ (walk : List (String × List String))
      (tests descs : List (String × String))
      (r : List (String × String) × List (String × String)),
      processWalk walk tests descs = .ok r →
      ∀ e ∈ walk, ∀ f ∈ e.2, (matchTestPat f || matchDescPat f) = true →
        (splitDots f).length = 2 := by
  intro walk
  induction walk with
  | nil => intro tests descs r _ e he; cases he
  | cons hd tl ih =>
    intro tests descs r h e he f hf hm
    rcases hd with ⟨root, files⟩
    rw [processWalk] at h
    split at h
    · cases h
    · rename_i tests1 ht
      split at h
      · cases h
      · rename_i descs1 hdd
        rcases List.mem_cons.mp he with hehd | hetl
        · subst hehd
          simp only at hf
          rcases Bool.or_eq_true_iff.mp hm with hmt | hmd
          · exact processTestFiles_ok_split root (files.filter matchTestPat)
              tests tests1 ht f (List.mem_filter.mpr ⟨hf, hmt⟩)
          · exact processDescFiles_ok_split root tests1
              (files.filter matchDescPat) descs descs1 hdd f
              (List.mem_filter.mpr ⟨hf, hmd⟩)
        · exact ih tests1 descs1 r h e hetl f hf hm

/-! ## Claim C7: collision detection -/

/-- C7: during catalog building, a test file whose name was already seen
as a test raises the duplicate-test `IpaUtilsException`, a description
whose name was already seen as a description raises the
duplicate-description `IpaUtilsException`, and a description whose name
was already seen as a test raises the cross-kind `IpaUtilsException`;
concretely, two `test_x.py` in different directories conflict, and a
`test_x.yaml` after a `test_x.py` conflicts. -/
theorem catalog_collision_detection :
    (∀ (root : String) (tests : List (String × String))
        (file name ext prev : String),
        splitDots file = [name, ext] → lookupA tests name = some prev →
        processTestFile root tests file =
          .error (.utilsError ("Duplicate test file name found: " ++
            pathJoin root file ++ ", " ++ prev))) ∧
    (∀ (root : String) (tests descs : List (String × String))
        (file name ext prev : String),
        splitDots file = [name, ext] → lookupA tests name = none →
        lookupA descs name = some prev →
        processDescFile root tests descs file =
          .error (.utilsError ("Duplicate test description file name found: " ++
            pathJoin root file ++ ", " ++ prev))) ∧
    (∀ (root : String) (tests descs : List (String × String))
        (file name ext prev : String),
        splitDots file = [name, ext] → lookupA tests name = some prev →
        processDescFile root tests descs file =
          .error (.utilsError ("Test description name matches test file: " ++
            pathJoin root file ++ ", " ++ prev))) ∧
    find_test_files_nonames [("d1", ["test_x.py"]), ("d2", ["test_x.py"])] =
      .error (.utilsError
        "Duplicate test file name found: d2/test_x.py, d1/test_x.py") ∧
    find_test_files_nonames [("d1", ["test_x.py"]), ("d2", ["test_x.yaml"])] =
      .error (.utilsError
        "Test description name matches test file: d2/test_x.yaml, d1/test_x.py") := by
  refine ⟨?_, ?_, ?_, by decide, by decide⟩
  · intro root tests file name ext prev hsplit hlook
    unfold processTestFile
    rw [hsplit]
    dsimp only
    rw [hlook]
  · intro root tests descs file name ext prev hsplit hnone hlook
    unfold processDescFile
    rw [hsplit]
    dsimp only
    rw [hnone]
    dsimp only
    rw [hlook]
  · intro root tests descs file name ext prev hsplit hlook
    unfold processDescFile
    rw [hsplit]
    dsimp only
    rw [hlook]

theorem catalog_collision_detection_witness :
    processTestFile "d2" [("test_x", "d1/test_x.py")] "test_x.py" =
      .error (.utilsError
        "Duplicate test file name found: d2/test_x.py, d1/test_x.py") :=
  catalog_collision_detection.1 "d2" [("test_x", "d1/test_x.py")]
    "test_x.py" "test_x" "py" "d1/test_x.py" (by decide) rfl

/-! ## Claim C8 (corrected): one-sided collision detection -/

/-- C8 counterexample: a test file discovered after a same-named
description does not raise — the build completes successfully (and the
final union even maps the shared name to the description's path), so the
converse insertion order is not detected. -/
theorem catalog_converse_order_cex :
    find_test_files_nonames [("d1", ["test_x.yaml"]), ("d2", ["test_x.py"])] =
      .ok [("test_x", "d1/test_x.yaml")] := by decide

/-- C8 (amended): the test/description collision is detected in only one
insertion order: a description processed when its name is already a test
raises `IpaUtilsException`, but a test file is inserted without ever
consulting the description map (here: for every state of `tests`, a fresh
test name is inserted regardless of what descriptions exist), so
detection does depend on filesystem traversal order. -/
theorem catalog_one_sided_collision :
    (∀ (root : String) (tests descs : List (String × String))
        (file name ext prev : String),
        splitDots file = [name, ext] → lookupA tests name = some prev →
        processDescFile root tests descs file =
          .error (.utilsError ("Test description name matches test file: " ++
            pathJoin root file ++ ", " ++ prev))) ∧
    (∀ (root : String) (tests : List (String × String))
        (file name ext : String),
        splitDots file = [name, ext] → lookupA tests name = none →
        processTestFile root tests file =
          .ok (tests ++ [(name, pathJoin root file)])) := by
  constructor
  · intro root tests descs file name ext prev hsplit hlook
    unfold processDescFile
    rw [hsplit]
    dsimp only
    rw [hlook]
  · intro root tests file name ext hsplit hnone
    unfold processTestFile
    rw [hsplit]
    dsimp only
    rw [hnone]

theorem catalog_one_sided_collision_witness :
    processTestFile "d2" [] "test_x.py" = .ok [("test_x", "d2/test_x.py")] :=
  catalog_one_sided_collision.2 "d2" [] "test_x.py" "test_x" "py"
    (by decide) rfl

/-! ## Claim C9: test-name resolution -/

/-- C9: the per-name resolution loop of `find_test_files` splits a
requested name on the first `::` into `(test_name, sub_case)`, raises the
not-found `IpaUtilsException` naming `test_name` when it is absent from
the test map, and otherwise emits the test's path — with `::sub_case`
appended when a sub-case is present — keyed by the original pre-split
requested name; concretely `foo::bar` with `foo ↦ /a/test_foo.py` yields
exactly `/a/test_foo.py::bar`. -/
theorem resolve_name_spec :
    (∀ (tests : List (String × String)) (name tn : String)
        (tc : Option String),
        splitCase name = (tn, tc) → lookupA tests tn = none →
        resolveName tests name =
          .error (.utilsError
            ("Test file with name: " ++ tn ++ " cannot be found."))) ∧
    (∀ (tests : List (String × String)) (name tn c path : String),
        splitCase name = (tn, some c) → c ≠ "" →
        lookupA tests tn = some path → path ≠ "" →
        resolveName tests name = .ok (name, path ++ "::" ++ c)) ∧
    (∀ (tests : List (String × String)) (name tn path : String),
        splitCase name = (tn, none) →
        lookupA tests tn = some path → path ≠ "" →
        resolveName tests name = .ok (name, path)) ∧
    resolveName [("foo", "/a/test_foo.py")] "foo::bar" =
      .ok ("foo::bar", "/a/test_foo.py::bar") := by
  refine ⟨?_, ?_, ?_, by decide⟩
  · intro tests name tn tc hsplit hnone
    unfold resolveName
    rw [hsplit]
    dsimp only
    rw [hnone]
  · intro tests name tn c path hsplit hc hlook hpath
    unfold resolveName
    rw [hsplit]
    dsimp only
    rw [hlook]
    dsimp only
    rw [if_neg hpath, if_neg hc]
  · intro tests name tn path hsplit hlook hpath
    unfold resolveName
    rw [hsplit]
    dsimp only
    rw [hlook]
    dsimp only
    rw [if_neg hpath]

theorem resolve_name_spec_witness :
    resolveName [("t", "/p/test_t.py")] "t::sub" = .ok ("t::sub", "/p/test_t.py::sub") :=
  resolve_name_spec.2.1 [("t", "/p/test_t.py")] "t::sub" "t" "sub"
    "/p/test_t.py" (by decide) (by decide) rfl (by decide)

/-! ## Claim C10 (corrected): multi-dot basenames abort the build -/

/-- C10 counterexample: the walk contains the multi-dot file
`test_foo.bar.py`, yet catalog building fails with the documented
duplicate-test `IpaUtilsException` (a collision discovered earlier), not
with the unhandled `ValueError` the claim asserts for every such input. -/
theorem multi_dot_cex :
    find_test_files_nonames
        [("d1", ["test_a.py"]), ("d2", ["test_a.py", "test_foo.bar.py"])] =
      .error (.utilsError
        "Duplicate test file name found: d2/test_a.py, d1/test_a.py") := by
  decide

/-- C10 (amended): a discovered file matching the test or description
pattern whose basename does not split on `.` into exactly two parts
prevents the catalog build from ever completing; when such a file is
itself processed (no earlier error pre-empting it) the failure is the
unhandled `ValueError` of the Python tuple unpacking, not one of the
documented `IpaUtilsException` kinds — concretely a lone
`test_foo.bar.py` yields exactly that `ValueError`. -/
theorem multi_dot_value_error :
    (∀ (walk : List (String × List String)) (e : String × List String)
        (f : String), e ∈ walk → f ∈ e.2 →
        (matchTestPat f || matchDescPat f) = true →
        (splitDots f).length ≠ 2 →
        ∀ r, find_test_files_nonames walk ≠ .ok r) ∧
    (∀ (root : String) (tests : List (String × String)) (f : String),
        (splitDots f).length ≠ 2 →
        processTestFile root tests f = .error (.valueError f)) ∧
    (∀ (root : String) (tests descs : List (String × String)) (f : String),
        (splitDots f).length ≠ 2 →
        processDescFile root tests descs f = .error (.valueError f)) ∧
    find_test_files_nonames [("d", ["test_foo.bar.py"])] =
      .error (.valueError "test_foo.bar.py") := by
  refine ⟨?_, ?_, ?_, by decide⟩
  · intro walk e f he hf hm hlen r hok
    unfold find_test_files_nonames at hok
    split at hok
    · cases hok
    · rename_i tests descs hwalk
      exact hlen (processWalk_ok_no_multidot walk [] [] (tests, descs)
        hwalk e he f hf hm)
  · intro root tests f hlen
    unfold processTestFile
    split
    · rename_i name ext heq
      exact absurd (by rw [heq]; rfl) hlen
    · rfl
  · intro root tests descs f hlen
    unfold processDescFile
    split
    · rename_i name ext heq
      exact absurd (by rw [heq]; rfl) hlen
    · rfl

theorem multi_dot_value_error_witness :
    processTestFile "d" [] "test_foo.bar.py" =
      .error (.valueError "test_foo.bar.py") :=
  multi_dot_value_error.2.1 "d" [] "test_foo.bar.py" (by decide)

/-! ## Expansion lemmas -/

theorem lookupA_mem_pathsOf : ∀ (descs : List (String × String))
    (name p : String), lookupA descs name = some p → p ∈ pathsOf descs := by
  intro descs
  induction descs with
  | nil => intro name p h; cases h
  | cons e rest ih =>
    intro name p h
    rcases e with ⟨k, v⟩
    rw [lookupA] at h
    by_cases hk : k = name
    · rw [if_pos hk] at h
      injection h with h'
      subst h'
      simp [pathsOf]
    · rw [if_neg hk] at h
      have hp := ih name p h
      simp [pathsOf] at hp ⊢
      exact Or.inr hp

theorem ExpandInv_compose (fs : String → Option TestDesc)
    (descs : List (String × String))
    (parsed parsed₁ parsed₂ n₁ n₂ : List String)
    (h₁ : ExpandInv fs descs parsed parsed₁ n₁)
    (h₂ : ExpandInv fs descs parsed₁ parsed₂ n₂) :
    ExpandInv fs descs parsed parsed₂ (n₁ ++ n₂) := by
  obtain ⟨e₁, nd₁, f₁, ps₁, s₁, c₁⟩ := h₁
  obtain ⟨e₂, nd₂, f₂, ps₂, s₂, c₂⟩ := h₂
  refine ⟨?_, ?_, ?_, ?_, ?_, ?_⟩
  · rw [e₂, e₁, List.append_assoc]
  · rw [List.nodup_append]
    refine ⟨nd₁, nd₂, ?_⟩
    intro p hp₁ hp₂
    exact f₂ p hp₂ (by rw [e₁]; exact List.mem_append_right parsed hp₁)
  · intro p hp
    rcases List.mem_append.mp hp with h | h
    · exact f₁ p h
    · intro hmem
      exact f₂ p h (by rw [e₁]; exact List.mem_append_left _ hmem)
  · intro p hp
    rcases List.mem_append.mp hp with h | h
    · exact ps₁ p h
    · exact ps₂ p h
  · intro p hp
    rcases List.mem_append.mp hp with h | h
    · exact s₁ p h
    · exact s₂ p h
  · intro p hp d hd n hn
    rcases List.mem_append.mp hp with h | h
    · obtain ⟨p', hl, hne, hm⟩ := c₁ p h d hd n hn
      exact ⟨p', hl, hne, by rw [e₂]; exact List.mem_append_left _ hm⟩
    · exact c₂ p h d hd n hn

theorem expandIncludes_post (fs : String → Option TestDesc)
    (descs : List (String × String))
    (step : String → List String → Option ExpandRes)
    (hstep : ∀ (n : String) (parsed ts parsed' : List String),
        step n parsed = some (.ok (ts, parsed')) →
        GPost fs descs n parsed ts parsed') :
    ∀ (incls acc parsed ts parsed' : List String),
      expandIncludes step incls acc parsed = some (.ok (ts, parsed')) →
      EPost fs descs incls acc parsed ts parsed' := by
  intro incls
  induction incls with
  | nil =>
    intro acc parsed ts parsed' h
    rw [expandIncludes] at h
    simp only [Option.some.injEq, Except.ok.injEq, Prod.mk.injEq] at h
    obtain ⟨hts, hpp⟩ := h
    subst hts; subst hpp
    refine ⟨[], ⟨by simp, List.nodup_nil, by simp, by simp, by simp, by simp⟩,
      by simp, by simp, by simp⟩
  | cons n rest ih =>
    intro acc parsed ts parsed' h
    rw [expandIncludes] at h
    split at h
    · cases h
    · simp at h
    · rename_i ts₁ parsed₁ hs
      obtain ⟨n₁, inv₁, hts₁, ⟨p, hp, hpne, hpmem⟩, sound₁⟩ :=
        hstep n parsed ts₁ parsed₁ hs
      obtain ⟨n₂, inv₂, hts₂, hres₂, sound₂⟩ := ih (acc ++ ts₁) parsed₁ ts parsed' h
      have hpp : parsed' = parsed₁ ++ n₂ := inv₂.1
      refine ⟨n₁ ++ n₂,
        ExpandInv_compose fs descs parsed parsed₁ parsed' n₁ n₂ inv₁ inv₂,
        ?_, ?_, ?_⟩
      · rw [hts₂, hts₁, List.map_append, List.flatten_append, List.append_assoc]
      · intro m hm
        rcases List.mem_cons.mp hm with hm | hm
        · subst hm
          exact ⟨p, hp, hpne, by rw [hpp]; exact List.mem_append_left _ hpmem⟩
        · exact hres₂ m hm
      · intro q hq
        rcases List.mem_append.mp hq with hq | hq
        · exact ⟨n, List.mem_cons_self _ _, sound₁ q hq⟩
        · obtain ⟨n', hn', hr⟩ := sound₂ q hq
          exact ⟨n', List.mem_cons_of_mem _ hn', hr⟩

theorem get_tests_post (fs : String → Option TestDesc)
    (descs : List (String × String)) :
    ∀ (fuel : Nat) (name : String) (parsed ts parsed' : List String),
      get_tests_from_description fs descs fuel name parsed =
        some (.ok (ts, parsed')) →
      GPost fs descs name parsed ts parsed' := by
  intro fuel
  induction fuel with
  | zero => intro name parsed ts parsed' h; cases h
  | succ fuel ih =>
    intro name parsed ts parsed' h
    rw [get_tests_from_description] at h
    split at h
    · simp at h
    · rename_i description hlook
      split at h
      · simp at h
      · rename_i hne
        split at h
        · rename_i hmem
          simp only [Option.some.injEq, Except.ok.injEq, Prod.mk.injEq] at h
          obtain ⟨hts, hpp⟩ := h
          subst hts; subst hpp
          exact ⟨[], ⟨by simp, List.nodup_nil, by simp, by simp, by simp, by simp⟩,
            by simp, ⟨description, hlook, hne, hmem⟩, by simp⟩
        · rename_i hnmem
          split at h
          · simp at h
          · rename_i data hfs
            obtain ⟨n₂, inv₂, hts₂, hres₂, sound₂⟩ :=
              expandIncludes_post fs descs
                (get_tests_from_description fs descs fuel)
                (fun nm q ts' q' hh => ih nm q ts' q' hh)
                (data.incl.getD []) (data.tests.getD [])
                (parsed ++ [description]) ts parsed' h
            obtain ⟨einv, ndinv, finv, psinv, sinv, cinv⟩ := inv₂
            have hppc : parsed' = parsed ++ (description :: n₂) := by
              rw [einv, List.append_assoc]
              rfl
            refine ⟨description :: n₂, ⟨hppc, ?_, ?_, ?_, ?_, ?_⟩, ?_, ?_, ?_⟩
            · rw [List.nodup_cons]
              refine ⟨?_, ndinv⟩
              intro hc
              exact finv description hc
                (List.mem_append_right parsed (List.mem_singleton.mpr rfl))
            · intro p hp
              rcases List.mem_cons.mp hp with hp | hp
              · subst hp; exact hnmem
              · intro hc
                exact finv p hp (List.mem_append_left _ hc)
            · intro p hp
              rcases List.mem_cons.mp hp with hp | hp
              · rw [hp]
                exact lookupA_mem_pathsOf descs name description hlook
              · exact psinv p hp
            · intro p hp
              rcases List.mem_cons.mp hp with hp | hp
              · subst hp; rw [hfs]; rfl
              · exact sinv p hp
            · intro p hp d hd nm hnm
              rcases List.mem_cons.mp hp with hp | hp
              · subst hp
                rw [hfs] at hd
                injection hd with hd
                subst hd
                exact hres₂ nm hnm
              · exact cinv p hp d hd nm hnm
            · rw [hts₂]
              simp [ownTests, hfs]
            · exact ⟨description, hlook, hne,
                by rw [hppc]
                   exact List.mem_append_right _ (List.mem_cons_self _ _)⟩
            · intro q hq
              rcases List.mem_cons.mp hq with hq | hq
              · rw [hq]
                exact ⟨description, hlook, hne, PathReach.refl description⟩
              · obtain ⟨nm, hnm, p₁, hp₁, hne₁, hreach⟩ := sound₂ q hq
                exact ⟨description, hlook, hne,
                  PathReach.step description data nm p₁ q hfs hnm hp₁ hne₁ hreach⟩

theorem remCount_append_le (descs : List (String × String))
    (parsed ext : List String) :
    remCount descs (parsed ++ ext) ≤ remCount descs parsed := by
  unfold remCount
  apply Finset.card_le_card
  apply Finset.sdiff_subset_sdiff (Finset.Subset.refl _)
  rw [List.toFinset_append]
  exact Finset.subset_union_left

theorem remCount_strict (descs : List (String × String))
    (parsed : List String) (p : String)
    (hp : p ∈ pathsOf descs) (hnp : p ∉ parsed) :
    remCount descs (parsed ++ [p]) < remCount descs parsed := by
  unfold remCount
  apply Finset.card_lt_card
  rw [Finset.ssubset_iff_of_subset
    (Finset.sdiff_subset_sdiff (Finset.Subset.refl _)
      (by rw [List.toFinset_append]; exact Finset.subset_union_left))]
  refine ⟨p, Finset.mem_sdiff.mpr ⟨List.mem_toFinset.mpr hp,
    fun hc => hnp (List.mem_toFinset.mp hc)⟩, ?_⟩
  intro hc
  rcases Finset.mem_sdiff.mp hc with ⟨_, hnot⟩
  exact hnot (List.mem_toFinset.mpr (List.mem_append_right parsed
    (List.mem_singleton.mpr rfl)))

theorem expandIncludes_total (descs : List (String × String))
    (step : String → List String → Option ExpandRes) (B : Nat)
    (hsome : ∀ (n : String) (q : List String),
        remCount descs q < B → (step n q).isSome = true)
    (hgrow : ∀ (n : String) (q ts q' : List String),
        step n q = some (.ok (ts, q')) → ∃ ext, q' = q ++ ext) :
    ∀ (incls acc q : List String), remCount descs q < B →
      (expandIncludes step incls acc q).isSome = true := by
  intro incls
  induction incls with
  | nil => intro acc q _; rw [expandIncludes]; rfl
  | cons n rest ih =>
    intro acc q hq
    cases hs : step n q with
    | none =>
      have := hsome n q hq
      rw [hs] at this
      cases this
    | some v =>
      cases v with
      | error e => simp only [expandIncludes, hs]; rfl
      | ok tp =>
        rcases tp with ⟨ts₁, q₁⟩
        obtain ⟨ext, hext⟩ := hgrow n q ts₁ q₁ hs
        have hq₁ : remCount descs q₁ < B := by
          rw [hext]
          exact Nat.lt_of_le_of_lt (remCount_append_le descs q ext) hq
        simp only [expandIncludes, hs]
        exact ih (acc ++ ts₁) q₁ hq₁

theorem get_tests_total (fs : String → Option TestDesc)
    (descs : List (String × String)) :
    ∀ (fuel : Nat) (name : String) (parsed : List String),
      remCount descs parsed < fuel →
      (get_tests_from_description fs descs fuel name parsed).isSome = true := by
  intro fuel
  induction fuel with
  | zero => intro name parsed h; exact absurd h (Nat.not_lt_zero _)
  | succ fuel ih =>
    intro name parsed hm
    rw [get_tests_from_description]
    split
    · rfl
    · rename_i description hlook
      split
      · rfl
      · rename_i hne
        split
        · rfl
        · rename_i hnmem
          split
          · rfl
          · rename_i data hfs
            apply expandIncludes_total descs
              (get_tests_from_description fs descs fuel) fuel
            · intro n q hq
              exact ih n q hq
            · intro n q ts q' hstep
              obtain ⟨newly, inv, _⟩ :=
                get_tests_post fs descs fuel n q ts q' hstep
              exact ⟨newly, inv.1⟩
            · have h1 : remCount descs (parsed ++ [description]) <
                  remCount descs parsed :=
                remCount_strict descs parsed description
                  (lookupA_mem_pathsOf descs name description hlook) hnmem
              omega

theorem get_tests_complete (fs : String → Option TestDesc)
    (descs : List (String × String)) (name : String) (fuel : Nat)
    (ts parsed' : List String)
    (h : get_tests_from_description fs descs fuel name [] =
      some (.ok (ts, parsed'))) :
    ∀ q, Reaches fs descs name q → q ∈ parsed' := by
  obtain ⟨newly, inv, hts, ⟨p₀, hl₀, hne₀, hmem₀⟩, sound⟩ :=
    get_tests_post fs descs fuel name [] ts parsed' h
  obtain ⟨einv, ndinv, finv, psinv, sinv, cinv⟩ := inv
  have hnp : parsed' = newly := by rw [einv]; rfl
  have reach_closed : ∀ p q, PathReach fs descs p q →
      p ∈ parsed' → q ∈ parsed' := by
    intro p q hpr
    induction hpr with
    | refl p => exact fun hp => hp
    | step p d n p' q hfs hn hl hne hrest ihr =>
      intro hp
      have hp' : p ∈ newly := by rw [← hnp]; exact hp
      obtain ⟨p'', hl'', hne'', hmem''⟩ := cinv p hp' d hfs n hn
      rw [hl] at hl''
      injection hl'' with heq
      rw [← heq] at hmem''
      exact ihr hmem''
  intro q hq
  obtain ⟨p, hl, hne, hpr⟩ := hq
  rw [hl₀] at hl
  injection hl with heq
  exact reach_closed p q hpr (by rw [heq] at hmem₀; exact hmem₀)

theorem expandIncludes_cases (step : String → List String → Option ExpandRes) :
    ∀ (incls q : List String),
      (∀ acc, expandIncludes step incls acc q = none) ∨
      (∃ e, ∀ acc, expandIncludes step incls acc q = some (.error e)) ∨
      (∃ rest q', ∀ acc, expandIncludes step incls acc q =
          some (.ok (acc ++ rest, q'))) := by
  intro incls
  induction incls with
  | nil =>
    intro q
    right; right
    refine ⟨[], q, fun acc => ?_⟩
    rw [expandIncludes]
    simp
  | cons n rest ih =>
    intro q
    cases hs : step n q with
    | none =>
      left
      intro acc
      simp only [expandIncludes, hs]
    | some v =>
      cases v with
      | error e =>
        right; left
        refine ⟨e, fun acc => ?_⟩
        simp only [expandIncludes, hs]
      | ok tp =>
        rcases tp with ⟨ts₁, q₁⟩
        rcases ih q₁ with hnone | ⟨e, herr⟩ | ⟨r₂, q₂, hok⟩
        · left
          intro acc
          simp only [expandIncludes, hs]
          exact hnone (acc ++ ts₁)
        · right; left
          refine ⟨e, fun acc => ?_⟩
          simp only [expandIncludes, hs]
          exact herr (acc ++ ts₁)
        · right; right
          refine ⟨ts₁ ++ r₂, q₂, fun acc => ?_⟩
          simp only [expandIncludes, hs]
          rw [hok (acc ++ ts₁), List.append_assoc]

theorem expandIncludes_acc_split (step : String → List String → Option ExpandRes)
    (incls acc q ts q' : List String)
    (h : expandIncludes step incls acc q = some (.ok (ts, q'))) :
    ∃ rest, ts = acc ++ rest ∧
      expandIncludes step incls [] q = some (.ok (rest, q')) := by
  rcases expandIncludes_cases step incls q with hn | ⟨e, he⟩ | ⟨rest, q₂, hok⟩
  · rw [hn acc] at h; cases h
  · rw [he acc] at h; simp at h
  · rw [hok acc] at h
    simp only [Option.some.injEq, Except.ok.injEq, Prod.mk.injEq] at h
    obtain ⟨h1, h2⟩ := h
    subst h2
    refine ⟨rest, h1.symm, ?_⟩
    have := hok []
    simpa using this

/-! ## Claim C1: expansion terminates and visits each description once -/

/-- C1: for every description graph (any filesystem of description
documents and any name→path dictionary, cycles included),
`get_tests_from_description` terminates — some finite fuel yields a
result — and a successful top-level expansion returns a duplicate-free
`parsed` list consisting of exactly the description paths reachable from
the requested name, with the returned tests being precisely the
concatenation of each visited description's own `tests`, i.e. each
reachable description's own tests appear exactly once. -/
theorem get_tests_cycle_safe (fs : String → Option TestDesc)
    (descs : List (String × String)) (name : String) :
    (∃ fuel r, get_tests_from_description fs descs fuel name [] = some r) ∧
    (∀ (fuel : Nat) (ts parsed' : List String),
      get_tests_from_description fs descs fuel name [] =
        some (.ok (ts, parsed')) →
      parsed'.Nodup ∧ ts = (parsed'.map (ownTests fs)).flatten ∧
      (∀ q, q ∈ parsed' ↔ Reaches fs descs name q)) := by
  constructor
  · have hs := get_tests_total fs descs (remCount descs [] + 1) name []
      (Nat.lt_succ_self _)
    obtain ⟨r, hr⟩ := Option.isSome_iff_exists.mp hs
    exact ⟨remCount descs [] + 1, r, hr⟩
  · intro fuel ts parsed' h
    obtain ⟨newly, inv, hts, root, sound⟩ :=
      get_tests_post fs descs fuel name [] ts parsed' h
    obtain ⟨einv, ndinv, _, _, _, _⟩ := inv
    have hnp : parsed' = newly := by rw [einv]; rfl
    refine ⟨by rw [hnp]; exact ndinv, by rw [hnp]; exact hts, ?_⟩
    intro q
    constructor
    · intro hq
      exact sound q (by rw [← hnp]; exact hq)
    · intro hq
      exact get_tests_complete fs descs name fuel ts parsed' h q hq

theorem get_tests_cycle_safe_witness :
    List.Nodup ["pA", "pB"] ∧
    ["tA", "tB"] = (["pA", "pB"].map (ownTests cycFs)).flatten :=
  have h := (get_tests_cycle_safe cycFs cycDescs "A").2 5 ["tA", "tB"]
    ["pA", "pB"] (by decide)
  ⟨h.1, h.2.1⟩

/-! ## Claim C2: expansion order and diamond deduplication -/

/-- C2: expanding a description whose path is not yet in the visited list
returns its own `tests` list first, followed by the depth-first,
document-order expansion of its `include` entries (the include loop run
from an empty accumulator with the path marked visited); and in the
diamond A→B,C with B→D and C→D, D's tests appear exactly once in A's
expansion. -/
theorem expand_order_and_diamond :
    (∀ (fs : String → Option TestDesc) (descs : List (String × String))
        (fuel : Nat) (name description : String) (data : TestDesc)
        (parsed ts parsed' : List String),
        lookupA descs name = some description → description ≠ "" →
        description ∉ parsed → fs description = some data →
        get_tests_from_description fs descs (fuel + 1) name parsed =
          some (.ok (ts, parsed')) →
        ∃ rest, ts = data.tests.getD [] ++ rest ∧
          expandIncludes (get_tests_from_description fs descs fuel)
            (data.incl.getD []) [] (parsed ++ [description]) =
            some (.ok (rest, parsed'))) ∧
    get_tests_from_description diaFs diaDescs 9 "A" [] =
      some (.ok (["tA", "tB", "tD", "tC"], ["pA", "pB", "pD", "pC"])) ∧
    List.count "tD" ["tA", "tB", "tD", "tC"] = 1 := by
  refine ⟨?_, by decide, by decide⟩
  intro fs descs fuel name description data parsed ts parsed' hlook hne hnmem hfs h
  simp only [get_tests_from_description, hlook, if_neg hne, if_neg hnmem,
    hfs] at h
  exact expandIncludes_acc_split (get_tests_from_description fs descs fuel)
    (data.incl.getD []) (data.tests.getD []) (parsed ++ [description])
    ts parsed' h

theorem expand_order_and_diamond_witness :
    ∃ rest, ["tA", "tB", "tD", "tC"] = ["tA"] ++ rest ∧
      expandIncludes (get_tests_from_description diaFs diaDescs 8)
        ["B", "C"] [] ["pA"] =
        some (.ok (rest, ["pA", "pB", "pD", "pC"])) :=
  expand_order_and_diamond.1 diaFs diaDescs 8 "A" "pA"
    ⟨some ["tA"], some ["B", "C"]⟩ [] ["tA", "tB", "tD", "tC"]
    ["pA", "pB", "pD", "pC"] (by decide) (by decide) (by decide) (by decide)
    (by decide)
